import Mathlib

/-!
Verification of the product-catalog taxonomy core of the repository:
the category tree-from-flat builder and the pre-order flatteners
(`src/App.tsx`, `src/api/public.ts`), the paginated product fetch with
defensive response-shape handling, the category-source fallback chain,
the derived-category scan and URL page clamping.

Modelling conventions, shared by all definitions below:
* a TypeScript value `string | null | undefined` is an `Option String`
  (`none` covers both `null` and `undefined`); JavaScript truthiness of
  such a value is `truthy` below (`none` and `some ""` are falsy);
* `children?: T[]` is a plain `List` (the code only ever reads
  `children?.length`, which cannot distinguish `undefined` from `[]`);
* JavaScript `Map` insertion/overwrite semantics (`set` keeps the first
  insertion position and the last value) are `upsertEntry`/`mapEntries`.
-/

/-- Scalar fields of a `ProductCategory` (`src/api/types.ts`): everything
except the recursive `children`/`parent` links.  `parent` is never read by
the functions under study and is omitted. -/
structure CatFlat where
  id : String
  name : String
  slug : Option String
  sortOrder : Option Int
  parentId : Option String
deriving DecidableEq, Repr

/-- A `ProductCategory` value: scalar fields plus the `children` list. -/
inductive Cat : Type where
  | mk (fields : CatFlat) (children : List Cat)

/-- Scalar fields of a category node. -/
def Cat.fields : Cat → CatFlat
  | .mk f _ => f

/-- Children list of a category node. -/
def Cat.children : Cat → List Cat
  | .mk _ c => c

/-- The `id` field of a category node. -/
def Cat.id (n : Cat) : String := n.fields.id

/-- The `parentId` field of a category node. -/
def Cat.parentId (n : Cat) : Option String := n.fields.parentId

/-- JavaScript truthiness of a `string | null | undefined` value:
`undefined`, `null` and `""` are falsy, every other string is truthy. -/
def truthy : Option String → Bool
  | none => false
  | some s => !s.isEmpty

/-- `flattenCategoryTree` (`src/api/public.ts`, lines 26-40): pre-order
walk of a category forest; a node lacking a truthy `parentId` of its own,
reached under a truthy incoming `parentId`, is emitted as a copy with
`parentId` replaced (`{ ...node, parentId }`); children recurse under
`node.id`. -/
def flattenCategoryTree : List Cat → Option String → List Cat
  | [], _ => []
  | Cat.mk f cs :: rest, parentId =>
    (if truthy parentId && !truthy f.parentId then
        Cat.mk { f with parentId := parentId } cs
      else Cat.mk f cs)
      :: (flattenCategoryTree cs (some f.id) ++ flattenCategoryTree rest parentId)

/-- `map.set item.id { ...item, children: [] }` of `buildCategoryTreeFromFlat`:
JavaScript `Map.set` keeps the original insertion position of an existing
key and overwrites its value. -/
def upsertEntry (acc : List CatFlat) (e : CatFlat) : List CatFlat :=
  if acc.any (fun x => x.id == e.id) then
    acc.map (fun x => if x.id == e.id then e else x)
  else acc ++ [e]

/-- The `Map` of `buildCategoryTreeFromFlat` after the first `forEach`, as
its (insertion-ordered) value list; storing `{ ...item, children: [] }`
amounts to keeping only the scalar fields. -/
def mapEntries (items : List Cat) : List CatFlat :=
  items.foldl (fun acc it => upsertEntry acc it.fields) []

/-- The test `item.parentId && item.parentId === pid`: entry `e` is pushed
into the children of the entry whose `id` is `pid`. -/
def isChildOfB (pid : String) (e : CatFlat) : Bool :=
  truthy e.parentId && e.parentId == some pid

/-- The test `item.parentId && map.has(item.parentId)` of
`buildCategoryTreeFromFlat`: a truthy `parentId` matching some stored id
makes the item a child; everything else is pushed to `roots`. -/
def isPlacedB (pool : List CatFlat) (e : CatFlat) : Bool :=
  truthy e.parentId && pool.any (fun p => some p.id == e.parentId)

/-- Children construction of `buildCategoryTreeFromFlat` (`src/App.tsx`,
lines 93-107).  The JavaScript loop mutates shared node objects: each
non-root entry is pushed into the children of the entry its `parentId`
names, in map order.  Read off the returned forest, the children of a node
with id `pid` are exactly the entries whose `parentId` equals `pid`, each
carrying the children computed the same way.  The recursion removes the
already-consumed child entries from the pool (they are children of `pid`,
hence - the map keys being distinct - never children of a deeper node), and
a fuel argument bounds the recursion depth; each recursive call strictly
shrinks the pool, so fuel `pool.length + 1` is never exhausted. -/
def buildKids : Nat → List CatFlat → String → List Cat
  | 0, _, _ => []
  | fuel + 1, pool, pid =>
    (pool.filter (fun c => isChildOfB pid c)).map
      (fun c => Cat.mk c (buildKids fuel (pool.filter (fun c2 => !isChildOfB pid c2)) c.id))

/-- `buildCategoryTreeFromFlat` (`src/App.tsx`, lines 93-107): store all
items in a `Map` keyed by id (children cleared), then push every entry
whose truthy `parentId` matches a stored id into that entry's children and
every other entry into `roots`; the forest hanging from `roots` is
returned. -/
def buildCategoryTreeFromFlat (items : List Cat) : List Cat :=
  let entries := mapEntries items
  let nonRoots := entries.filter (fun e => isPlacedB entries e)
  (entries.filter (fun e => !isPlacedB entries e)).map
    (fun r => Cat.mk r (buildKids entries.length nonRoots r.id))

/-- Pre-order list of the scalar fields of every node of a forest. -/
def collectF : List Cat → List CatFlat
  | [] => []
  | Cat.mk f cs :: rest => f :: (collectF cs ++ collectF rest)

/-- All (parent fields, child fields) pairs of a forest. -/
def childPairs : List Cat → List (CatFlat × CatFlat)
  | [] => []
  | Cat.mk f cs :: rest =>
    cs.map (fun c => (f, c.fields)) ++ (childPairs cs ++ childPairs rest)

/-- Parent chain inside a pool of entries: `x` reaches the id `pid` by
following truthy `parentId` references through members of `pool`. -/
inductive Chains (pool : List CatFlat) (pid : String) : CatFlat → Prop where
  | direct (x : CatFlat) (h1 : truthy x.parentId = true) (h2 : x.parentId = some pid) :
      Chains pool pid x
  | step (x p : CatFlat) (hp : p ∈ pool) (h1 : truthy x.parentId = true)
      (h2 : x.parentId = some p.id) (hc : Chains pool pid p) : Chains pool pid x

theorem id_inj_of_nodup {pool : List CatFlat} (h : (pool.map CatFlat.id).Nodup)
    {a b : CatFlat} (ha : a ∈ pool) (hb : b ∈ pool) (hid : a.id = b.id) : a = b :=
  List.inj_on_of_nodup_map h ha hb hid

theorem chains_target_unique {pool : List CatFlat} {pid1 pid2 : String} {x : CatFlat}
    (hnd : (pool.map CatFlat.id).Nodup)
    (hf1 : ∀ e ∈ pool, e.id ≠ pid1) (hf2 : ∀ e ∈ pool, e.id ≠ pid2)
    (h1 : Chains pool pid1 x) (h2 : Chains pool pid2 x) : pid1 = pid2 := by
  induction h1 with
  | direct y hy1 hy2 =>
    cases h2 with
    | direct _ hz1 hz2 => rw [hy2] at hz2; exact Option.some.inj hz2
    | step _ p hp hz1 hz2 _ => rw [hy2] at hz2; exact absurd (Option.some.inj hz2).symm (hf1 p hp)
  | step y p hp hy1 hy2 _ ih =>
    cases h2 with
    | direct _ hz1 hz2 => rw [hy2] at hz2; exact absurd (Option.some.inj hz2) (hf2 p hp)
    | step _ q hq hz1 hz2 hcq =>
      rw [hy2] at hz2
      have hpq : p = q := id_inj_of_nodup hnd hp hq (Option.some.inj hz2)
      exact ih (hpq ▸ hcq)

theorem chains_lift {pool rest : List CatFlat} {pid : String} {c x : CatFlat}
    (hsub : ∀ y ∈ rest, y ∈ pool) (hcp : c ∈ pool)
    (h1 : truthy c.parentId = true) (h2 : c.parentId = some pid)
    (hc : Chains rest c.id x) : Chains pool pid x := by
  induction hc with
  | direct y hy1 hy2 => exact Chains.step y c hcp hy1 hy2 (Chains.direct c h1 h2)
  | step y p hp hy1 hy2 _ ih => exact Chains.step y p (hsub p hp) hy1 hy2 ih

theorem isChildOfB_iff (pid : String) (e : CatFlat) :
    isChildOfB pid e = true ↔ truthy e.parentId = true ∧ e.parentId = some pid := by
  simp [isChildOfB]

theorem collectF_builder (xs : List CatFlat) (g : CatFlat → List Cat) :
    collectF (xs.map (fun c => Cat.mk c (g c))) = xs.flatMap (fun c => c :: collectF (g c)) := by
  induction xs with
  | nil => simp [collectF]
  | cons a as ih => simp [collectF, ih]

theorem buildKids_tops (fuel : Nat) (pool : List CatFlat) (pid : String) :
    (buildKids (fuel + 1) pool pid).map Cat.fields = pool.filter (fun c => isChildOfB pid c) := by
  simp [buildKids, Function.comp_def, Cat.fields]

theorem buildKids_mem : ∀ (fuel : Nat) (pool : List CatFlat) (pid : String) (x : CatFlat),
    x ∈ collectF (buildKids fuel pool pid) → x ∈ pool ∧ Chains pool pid x := by
  intro fuel
  induction fuel with
  | zero => intro pool pid x hx; simp [buildKids, collectF] at hx
  | succ fuel ih =>
    intro pool pid x hx
    rw [buildKids, collectF_builder] at hx
    rw [List.mem_flatMap] at hx
    obtain ⟨c, hc, hx⟩ := hx
    have hcpool := List.mem_filter.1 hc
    have hcchild := (isChildOfB_iff pid c).1 hcpool.2
    rcases List.mem_cons.1 hx with rfl | hx
    · exact ⟨hcpool.1, Chains.direct x hcchild.1 hcchild.2⟩
    · have hrec := ih _ _ _ hx
      have hrsub : ∀ y ∈ pool.filter (fun c2 => !isChildOfB pid c2), y ∈ pool :=
        fun y hy => (List.mem_filter.1 hy).1
      exact ⟨hrsub x hrec.1, chains_lift hrsub hcpool.1 hcchild.1 hcchild.2 hrec.2⟩

theorem assemble_nodup :
    ∀ (ts : List CatFlat) (pool : List CatFlat) (sub : CatFlat → List CatFlat),
      (pool.map CatFlat.id).Nodup →
      (ts.map CatFlat.id).Nodup →
      (∀ t ∈ ts, ∀ e ∈ pool, e.id ≠ t.id) →
      (∀ t ∈ ts, ((sub t).map CatFlat.id).Nodup) →
      (∀ t ∈ ts, ∀ x ∈ sub t, x ∈ pool ∧ Chains pool t.id x) →
      ((ts.flatMap (fun t => t :: sub t)).map CatFlat.id).Nodup := by
  intro ts
  induction ts with
  | nil => intro pool sub _ _ _ _ _; simp
  | cons t ts ih =>
    intro pool sub hpool hts hfresh hsubnd hsubmem
    rw [List.flatMap_cons, List.map_append]
    have htsnd := List.nodup_cons.1 hts
    refine List.Nodup.append ?_ ?_ ?_
    · rw [List.map_cons]
      refine List.nodup_cons.2 ⟨?_, hsubnd t (List.mem_cons_self t ts)⟩
      intro hmem
      obtain ⟨x, hx, hxid⟩ := List.mem_map.1 hmem
      exact hfresh t (List.mem_cons_self t ts) x
        (hsubmem t (List.mem_cons_self t ts) x hx).1 hxid
    · exact ih pool sub hpool htsnd.2
        (fun u hu => hfresh u (List.mem_cons_of_mem t hu))
        (fun u hu => hsubnd u (List.mem_cons_of_mem t hu))
        (fun u hu => hsubmem u (List.mem_cons_of_mem t hu))
    · intro a ha hb
      rw [List.map_cons] at ha
      obtain ⟨piece, hpiece, hapiece⟩ :
          ∃ u, u ∈ ts ∧ a ∈ (List.map CatFlat.id (u :: sub u)) := by
        rw [List.map_flatMap] at hb
        obtain ⟨u, hu, hau⟩ := List.mem_flatMap.1 hb
        exact ⟨u, hu, hau⟩
      rcases List.mem_cons.1 ha with rfl | ha2
      · rcases List.mem_cons.1 hapiece with heq | hmem
        · exact htsnd.1 (heq ▸ List.mem_map_of_mem CatFlat.id hpiece)
        · obtain ⟨y, hy, hyid⟩ := List.mem_map.1 hmem
          have hymem := (hsubmem piece (List.mem_cons_of_mem t hpiece) y hy).1
          exact hfresh t (List.mem_cons_self t ts) y hymem hyid
      · obtain ⟨x, hx, hxid⟩ := List.mem_map.1 ha2
        have hxmem := hsubmem t (List.mem_cons_self t ts) x hx
        rcases List.mem_cons.1 hapiece with heq | hmem
        · exact hfresh piece (List.mem_cons_of_mem t hpiece) x hxmem.1 (hxid.trans heq)
        · obtain ⟨y, hy, hyid⟩ := List.mem_map.1 hmem
          have hymem := hsubmem piece (List.mem_cons_of_mem t hpiece) y hy
          have hxy : x = y := id_inj_of_nodup hpool hxmem.1 hymem.1 (hxid.trans hyid.symm)
          have hid : t.id = piece.id := by
            refine chains_target_unique hpool
              (fun e he hne => hfresh t (List.mem_cons_self t ts) e he hne)
              (fun e he hne => hfresh piece (List.mem_cons_of_mem t hpiece) e he hne)
              hxmem.2 ?_
            rw [hxy]; exact hymem.2
          exact htsnd.1 (hid ▸ List.mem_map_of_mem CatFlat.id hpiece)

theorem buildKids_nodup : ∀ (fuel : Nat) (pool : List CatFlat) (pid : String),
    (pool.map CatFlat.id).Nodup →
    ((collectF (buildKids fuel pool pid)).map CatFlat.id).Nodup := by
  intro fuel
  induction fuel with
  | zero => intro pool pid _; simp [buildKids, collectF]
  | succ fuel ih =>
    intro pool pid hnd
    rw [buildKids, collectF_builder]
    have hkids : ((pool.filter (fun c => isChildOfB pid c)).map CatFlat.id).Nodup :=
      hnd.sublist ((List.filter_sublist pool).map CatFlat.id)
    have hrest : ((pool.filter (fun c2 => !isChildOfB pid c2)).map CatFlat.id).Nodup :=
      hnd.sublist ((List.filter_sublist pool).map CatFlat.id)
    refine assemble_nodup _ _ _ hrest hkids ?_ ?_ ?_
    · intro t ht e he hid
      have htp := List.mem_filter.1 ht
      have hep := List.mem_filter.1 he
      have : e = t := id_inj_of_nodup hnd hep.1 htp.1 hid
      rw [this] at hep
      rw [htp.2] at hep
      simp at hep
    · intro t ht
      exact ih _ t.id hrest
    · intro t ht x hx
      exact buildKids_mem fuel _ t.id x hx


theorem chains_split {pool : List CatFlat} {pid : String} {x : CatFlat}
    (hc : Chains pool pid x) :
    x ∈ pool →
    isChildOfB pid x = true ∨
      (x ∈ pool.filter (fun c2 => !isChildOfB pid c2) ∧
       ∃ c ∈ pool.filter (fun c => isChildOfB pid c),
         Chains (pool.filter (fun c2 => !isChildOfB pid c2)) c.id x) := by
  induction hc with
  | direct y hy1 hy2 => exact fun _ => Or.inl ((isChildOfB_iff pid y).2 ⟨hy1, hy2⟩)
  | step y p hp hy1 hy2 hcp ih =>
    intro hy_pool
    by_cases hy : isChildOfB pid y = true
    · exact Or.inl hy
    · right
      have hymem : y ∈ pool.filter (fun c2 => !isChildOfB pid c2) :=
        List.mem_filter.2 ⟨hy_pool, by simp [hy]⟩
      refine ⟨hymem, ?_⟩
      rcases ih hp with hpchild | ⟨hprest, c, hckid, hchain⟩
      · exact ⟨p, List.mem_filter.2 ⟨hp, hpchild⟩, Chains.direct y hy1 hy2⟩
      · exact ⟨c, hckid, Chains.step y p hprest hy1 hy2 hchain⟩

theorem buildKids_complete : ∀ (fuel : Nat) (pool : List CatFlat) (pid : String) (x : CatFlat),
    pool.length < fuel →
    (pool.map CatFlat.id).Nodup →
    (∀ e ∈ pool, e.id ≠ pid) →
    Chains pool pid x → x ∈ pool →
    x ∈ collectF (buildKids fuel pool pid) := by
  intro fuel
  induction fuel with
  | zero => intro pool pid x hlen; omega
  | succ fuel ih =>
    intro pool pid x hlen hnd hfresh hc hx
    rw [buildKids, collectF_builder, List.mem_flatMap]
    rcases chains_split hc hx with hchild | ⟨hrest, c, hckid, hchain⟩
    · exact ⟨x, List.mem_filter.2 ⟨hx, hchild⟩, List.mem_cons_self _ _⟩
    · refine ⟨c, hckid, List.mem_cons_of_mem _ ?_⟩
      have hcpool := (List.mem_filter.1 hckid).1
      have hcnotrest : c ∉ pool.filter (fun c2 => !isChildOfB pid c2) := by
        intro hcmem
        have := (List.mem_filter.1 hcmem).2
        rw [(List.mem_filter.1 hckid).2] at this
        simp at this
      have hrest_len : (pool.filter (fun c2 => !isChildOfB pid c2)).length < fuel := by
        have hsub : (pool.filter (fun c2 => !isChildOfB pid c2)).Sublist pool :=
          List.filter_sublist pool
        have hlt : (pool.filter (fun c2 => !isChildOfB pid c2)).length < pool.length := by
          rcases Nat.lt_or_ge (pool.filter (fun c2 => !isChildOfB pid c2)).length
              pool.length with h | h
          · exact h
          · have heq := List.Sublist.eq_of_length_le hsub h
            rw [heq] at hcnotrest
            exact absurd hcpool hcnotrest
        omega
      have hrest_nd : ((pool.filter (fun c2 => !isChildOfB pid c2)).map CatFlat.id).Nodup :=
        hnd.sublist ((List.filter_sublist pool).map CatFlat.id)
      have hrest_fresh : ∀ e ∈ pool.filter (fun c2 => !isChildOfB pid c2), e.id ≠ c.id := by
        intro e he hid
        have : e = c := id_inj_of_nodup hnd (List.mem_filter.1 he).1 hcpool hid
        exact hcnotrest (this ▸ he)
      exact ih _ c.id x hrest_len hrest_nd hrest_fresh hchain hrest

theorem isPlacedB_iff (pool : List CatFlat) (e : CatFlat) :
    isPlacedB pool e = true ↔
      truthy e.parentId = true ∧ ∃ p ∈ pool, e.parentId = some p.id := by
  constructor
  · intro h
    rw [isPlacedB, Bool.and_eq_true] at h
    refine ⟨h.1, ?_⟩
    obtain ⟨p, hp, hpe⟩ := List.any_eq_true.1 h.2
    exact ⟨p, hp, (beq_iff_eq.1 hpe).symm⟩
  · intro ⟨ht, p, hp, hpe⟩
    rw [isPlacedB, Bool.and_eq_true]
    exact ⟨ht, List.any_eq_true.2 ⟨p, hp, beq_iff_eq.2 hpe.symm⟩⟩

theorem length_filter_not_add {α : Type} (l : List α) (p : α → Bool) :
    (l.filter p).length + (l.filter (fun a => !p a)).length = l.length := by
  induction l with
  | nil => simp
  | cons a l ih => by_cases h : p a = true <;> simp [List.filter_cons, h, ← ih] <;> omega

theorem placed_chain_to_root (entries : List CatFlat) (rank : String → Nat)
    (hrank : ∀ x ∈ entries, ∀ p ∈ entries, truthy x.parentId = true →
      x.parentId = some p.id → rank p.id < rank x.id) :
    ∀ (n : Nat) (x : CatFlat), x ∈ entries → rank x.id < n → isPlacedB entries x = true →
      ∃ r ∈ entries.filter (fun e => !isPlacedB entries e),
        Chains (entries.filter (fun e => isPlacedB entries e)) r.id x := by
  intro n
  induction n with
  | zero => intro x _ h; omega
  | succ n ih =>
    intro x hx hrankx hplaced
    obtain ⟨ht, p, hp, hpid⟩ := (isPlacedB_iff entries x).1 hplaced
    have hlt := hrank x hx p hp ht hpid
    by_cases hpp : isPlacedB entries p = true
    · obtain ⟨r, hr, hchain⟩ := ih p hp (by omega) hpp
      exact ⟨r, hr, Chains.step x p (List.mem_filter.2 ⟨hp, hpp⟩) ht hpid hchain⟩
    · exact ⟨p, List.mem_filter.2 ⟨hp, by simp [hpp]⟩, Chains.direct x ht hpid⟩

theorem foldl_upsert_fresh : ∀ (items : List Cat) (acc : List CatFlat),
    (∀ n ∈ items, ∀ a ∈ acc, a.id ≠ n.fields.id) →
    ((items.map fun n => n.fields.id)).Nodup →
    items.foldl (fun acc2 it => upsertEntry acc2 it.fields) acc = acc ++ items.map Cat.fields := by
  intro items
  induction items with
  | nil => intro acc _ _; simp
  | cons n ns ih =>
    intro acc hfresh hnd
    rw [List.foldl_cons]
    have hnew : upsertEntry acc n.fields = acc ++ [n.fields] := by
      rw [upsertEntry, if_neg]
      intro hany
      obtain ⟨a, ha, hbeq⟩ := List.any_eq_true.1 hany
      exact hfresh n (List.mem_cons_self n ns) a ha (beq_iff_eq.1 hbeq)
    rw [hnew]
    have hnd2 := List.nodup_cons.1 hnd
    rw [ih (acc ++ [n.fields]) ?_ hnd2.2]
    · simp [Cat.fields]
    · intro m hm a ha hid
      rcases List.mem_append.1 ha with ha2 | ha2
      · exact hfresh m (List.mem_cons_of_mem n hm) a ha2 hid
      · rw [List.mem_singleton.1 ha2] at hid
        refine hnd2.1 ?_
        show n.fields.id ∈ List.map (fun n => n.fields.id) ns
        rw [hid]
        exact List.mem_map_of_mem (fun n => n.fields.id) hm

theorem mapEntries_eq_of_nodup (items : List Cat)
    (hnd : ((items.map fun n => n.fields.id)).Nodup) :
    mapEntries items = items.map Cat.fields := by
  rw [mapEntries, foldl_upsert_fresh items [] (by intro n _ a ha; simp at ha) hnd]
  simp

theorem flat_ids : ∀ (ns : List Cat) (pid : Option String),
    (flattenCategoryTree ns pid).map Cat.id = (collectF ns).map CatFlat.id
  | [], _ => by simp [flattenCategoryTree, collectF]
  | Cat.mk f cs :: rest, pid => by
    have h1 := flat_ids cs (some f.id)
    have h2 := flat_ids rest pid
    by_cases h : (truthy pid && !truthy f.parentId) = true <;>
      simp [flattenCategoryTree, collectF, Cat.id, Cat.fields, h, h1, h2]

/-- Acyclicity of the `parentId` references of a category list: some rank
function strictly decreases from every item to the item its truthy
`parentId` names. -/
def AcyclicItems (items : List Cat) : Prop :=
  ∃ rank : String → Nat, ∀ x ∈ items, ∀ p ∈ items,
    truthy x.parentId = true → x.parentId = some p.id → rank p.id < rank x.id

theorem length_filter_lt {α : Type} (l : List α) (p : α → Bool) (x : α)
    (hx : x ∈ l) (hpx : p x = false) : (l.filter p).length < l.length := by
  induction l with
  | nil => cases hx
  | cons a l ih =>
    rw [List.filter_cons]
    rcases List.mem_cons.1 hx with rfl | hx2
    · rw [hpx]
      simp only [Bool.false_eq_true, if_false, List.length_cons]
      exact Nat.lt_succ_of_le (List.length_filter_le p l)
    · by_cases hpa : p a = true
      · rw [hpa]
        simp only [if_true, List.length_cons]
        exact Nat.succ_lt_succ (ih hx2)
      · rw [Bool.not_eq_true] at hpa
        rw [hpa]
        simp only [Bool.false_eq_true, if_false, List.length_cons]
        exact Nat.lt_succ_of_le (Nat.le_of_lt (ih hx2))

theorem build_collect_perm (items : List Cat)
    (hnd : (items.map Cat.id).Nodup) (hacyc : AcyclicItems items) :
    (collectF (buildCategoryTreeFromFlat items)).Perm (items.map Cat.fields) := by
  obtain ⟨rank, hrank⟩ := hacyc
  have hE : mapEntries items = items.map Cat.fields := mapEntries_eq_of_nodup items hnd
  have hend : ((mapEntries items).map CatFlat.id).Nodup := by
    rw [hE, List.map_map]
    exact hnd
  have hcollect : collectF (buildCategoryTreeFromFlat items)
      = ((mapEntries items).filter (fun e => !isPlacedB (mapEntries items) e)).flatMap
          (fun r => r :: collectF (buildKids (mapEntries items).length
            ((mapEntries items).filter (fun e => isPlacedB (mapEntries items) e)) r.id)) := by
    simp only [buildCategoryTreeFromFlat]
    rw [collectF_builder]
  have hrank2 : ∀ x ∈ mapEntries items, ∀ p ∈ mapEntries items,
      truthy x.parentId = true → x.parentId = some p.id → rank p.id < rank x.id := by
    rw [hE]
    intro x hx p hp ht hpid
    obtain ⟨xc, hxc, rfl⟩ := List.mem_map.1 hx
    obtain ⟨pc, hpc, rfl⟩ := List.mem_map.1 hp
    exact hrank xc hxc pc hpc ht hpid
  have hnr_nd : (((mapEntries items).filter
      (fun e => isPlacedB (mapEntries items) e)).map CatFlat.id).Nodup :=
    hend.sublist ((List.filter_sublist (mapEntries items)).map CatFlat.id)
  have hrt_nd : (((mapEntries items).filter
      (fun e => !isPlacedB (mapEntries items) e)).map CatFlat.id).Nodup :=
    hend.sublist ((List.filter_sublist (mapEntries items)).map CatFlat.id)
  have hfresh : ∀ r ∈ (mapEntries items).filter (fun e => !isPlacedB (mapEntries items) e),
      ∀ e ∈ (mapEntries items).filter (fun e => isPlacedB (mapEntries items) e),
        e.id ≠ r.id := by
    intro r hr e he hid
    have hre := List.mem_filter.1 hr
    have hee := List.mem_filter.1 he
    have heq : e = r := id_inj_of_nodup hend hee.1 hre.1 hid
    have h1 := hre.2
    rw [← heq, hee.2] at h1
    simp at h1
  have hcol_nd : ((collectF (buildCategoryTreeFromFlat items)).map CatFlat.id).Nodup := by
    rw [hcollect]
    refine assemble_nodup _ _ _ hnr_nd hrt_nd hfresh ?_ ?_
    · intro t _
      exact buildKids_nodup (mapEntries items).length _ t.id hnr_nd
    · intro t _ x hx
      exact buildKids_mem (mapEntries items).length _ t.id x hx
  have hmem : ∀ x, x ∈ collectF (buildCategoryTreeFromFlat items) ↔ x ∈ mapEntries items := by
    intro x
    constructor
    · intro hx
      rw [hcollect, List.mem_flatMap] at hx
      obtain ⟨r, hr, hx⟩ := hx
      rcases List.mem_cons.1 hx with rfl | hx2
      · exact (List.mem_filter.1 hr).1
      · exact (List.mem_filter.1 (buildKids_mem _ _ _ _ hx2).1).1
    · intro hx
      rw [hcollect, List.mem_flatMap]
      by_cases hp : isPlacedB (mapEntries items) x = true
      · obtain ⟨r, hr, hchain⟩ :=
          placed_chain_to_root (mapEntries items) rank hrank2 (rank x.id + 1) x hx
            (Nat.lt_succ_self _) hp
        refine ⟨r, hr, List.mem_cons_of_mem _ ?_⟩
        have hrent := List.mem_filter.1 hr
        have hrfalse : isPlacedB (mapEntries items) r = false :=
          Bool.not_eq_true _ ▸ (Bool.of_not_eq_true (by simpa using hrent.2))
        have hlen : ((mapEntries items).filter
            (fun e => isPlacedB (mapEntries items) e)).length < (mapEntries items).length :=
          length_filter_lt _ _ r hrent.1 hrfalse
        exact buildKids_complete (mapEntries items).length _ r.id x hlen hnr_nd
          (fun e he => hfresh r hr e he) hchain (List.mem_filter.2 ⟨hx, hp⟩)
      · refine ⟨x, List.mem_filter.2 ⟨hx, by simp [hp]⟩, List.mem_cons_self _ _⟩
  have hperm : (collectF (buildCategoryTreeFromFlat items)).Perm (mapEntries items) :=
    (List.perm_ext_iff_of_nodup (List.Nodup.of_map _ hcol_nd) (List.Nodup.of_map _ hend)).2 hmem
  rw [hE] at hperm
  exact hperm

/-- C1: for every flat list of product categories with pairwise-distinct
ids and acyclic `parentId` references, flattening the tree built from it -
`flattenCategoryTree (buildCategoryTreeFromFlat items)` - yields a list
whose ids are a permutation of the ids of the input items (each input id
exactly once). -/
theorem c1_normalizer_roundtrip_ids (items : List Cat)
    (hnd : (items.map Cat.id).Nodup) (hacyc : AcyclicItems items) :
    ((flattenCategoryTree (buildCategoryTreeFromFlat items) none).map Cat.id).Perm
      (items.map Cat.id) := by
  rw [flat_ids]
  have h := (build_collect_perm items hnd hacyc).map CatFlat.id
  rw [List.map_map] at h
  exact h

/-- Concrete three-element chain used to witness `c1_normalizer_roundtrip_ids`. -/
def c1WItems : List Cat :=
  [Cat.mk ⟨"a", "Alpha", none, none, none⟩ [],
   Cat.mk ⟨"b", "Beta", none, none, some "a"⟩ [],
   Cat.mk ⟨"c", "Gamma", none, none, some "b"⟩ []]

/-- Rank function witnessing acyclicity of `c1WItems`. -/
def c1WRank : String → Nat :=
  fun s => if s = "b" then 1 else if s = "c" then 2 else 0

theorem c1_normalizer_roundtrip_ids_witness :
    (c1WItems.map Cat.id).Nodup ∧ AcyclicItems c1WItems ∧
      ((flattenCategoryTree (buildCategoryTreeFromFlat c1WItems) none).map Cat.id).Perm
        (c1WItems.map Cat.id) :=
  ⟨by decide, ⟨c1WRank, by decide⟩,
    c1_normalizer_roundtrip_ids c1WItems (by decide) ⟨c1WRank, by decide⟩⟩

theorem childPairs_builder (xs : List CatFlat) (g : CatFlat → List Cat) :
    childPairs (xs.map (fun c => Cat.mk c (g c)))
      = xs.flatMap (fun c => (g c).map (fun k => (c, k.fields)) ++ childPairs (g c)) := by
  induction xs with
  | nil => simp [childPairs]
  | cons a as ih => simp [childPairs, ih]

theorem buildKids_node_mem : ∀ (fuel : Nat) (pool : List CatFlat) (pid : String) (n : Cat),
    n ∈ buildKids fuel pool pid →
    n.fields ∈ pool ∧ isChildOfB pid n.fields = true := by
  intro fuel pool pid n hn
  cases fuel with
  | zero => simp [buildKids] at hn
  | succ fuel =>
    rw [buildKids] at hn
    obtain ⟨c, hc, rfl⟩ := List.mem_map.1 hn
    have hcf := List.mem_filter.1 hc
    exact ⟨hcf.1, by simpa [Cat.fields] using hcf.2⟩

theorem buildKids_pairs : ∀ (fuel : Nat) (pool : List CatFlat) (pid : String) (p k : CatFlat),
    (p, k) ∈ childPairs (buildKids fuel pool pid) →
    p ∈ pool ∧ k ∈ pool ∧ truthy k.parentId = true ∧ k.parentId = some p.id := by
  intro fuel
  induction fuel with
  | zero => intro pool pid p k h; simp [buildKids, childPairs] at h
  | succ fuel ih =>
    intro pool pid p k h
    rw [buildKids, childPairs_builder, List.mem_flatMap] at h
    obtain ⟨c, hc, h⟩ := h
    have hcf := List.mem_filter.1 hc
    rcases List.mem_append.1 h with h2 | h2
    · obtain ⟨kk, hkk, heq⟩ := List.mem_map.1 h2
      have hkm := buildKids_node_mem fuel _ c.id kk hkk
      have hkr := List.mem_filter.1 hkm.1
      have hp : c = p := congrArg Prod.fst heq
      have hk : kk.fields = k := congrArg Prod.snd heq
      have hchild := (isChildOfB_iff c.id kk.fields).1 hkm.2
      rw [← hp, ← hk]
      exact ⟨hcf.1, hkr.1, hchild.1, hchild.2⟩
    · have hrec := ih _ c.id p k h2
      exact ⟨(List.mem_filter.1 hrec.1).1, (List.mem_filter.1 hrec.2.1).1,
        hrec.2.2.1, hrec.2.2.2⟩

theorem buildKids_collect_cases : ∀ (fuel : Nat) (pool : List CatFlat) (pid : String)
    (x : CatFlat), x ∈ collectF (buildKids fuel pool pid) →
    x ∈ (buildKids fuel pool pid).map Cat.fields ∨
      ∃ p, (p, x) ∈ childPairs (buildKids fuel pool pid) := by
  intro fuel
  induction fuel with
  | zero => intro pool pid x h; simp [buildKids, collectF] at h
  | succ fuel ih =>
    intro pool pid x h
    rw [buildKids, collectF_builder, List.mem_flatMap] at h
    obtain ⟨c, hc, h⟩ := h
    rcases List.mem_cons.1 h with rfl | h2
    · left
      rw [buildKids, List.map_map]
      refine List.mem_map.2 ⟨x, hc, rfl⟩
    · rcases ih _ c.id x h2 with htop | ⟨p, hp⟩
      · right
        obtain ⟨kk, hkk, rfl⟩ := List.mem_map.1 htop
        refine ⟨c, ?_⟩
        rw [buildKids, childPairs_builder, List.mem_flatMap]
        exact ⟨c, hc, List.mem_append.2 (Or.inl (List.mem_map.2 ⟨kk, hkk, rfl⟩))⟩
      · right
        refine ⟨p, ?_⟩
        rw [buildKids, childPairs_builder, List.mem_flatMap]
        exact ⟨c, hc, List.mem_append.2 (Or.inr hp)⟩

theorem map_fields_mk (xs : List CatFlat) (g : CatFlat → List Cat) :
    (xs.map (fun c => Cat.mk c (g c))).map Cat.fields = xs := by
  rw [List.map_map]
  simp [Function.comp_def, Cat.fields]

/-- C2 (amended): for every input list with pairwise-distinct ids and
acyclic `parentId` references, `buildCategoryTreeFromFlat` makes an item a
child of the item whose id equals its `parentId` exactly when its
`parentId` is non-null, non-empty and equal to the id of some input item;
every other item becomes a root of the returned forest (and no root is
also a child). -/
theorem c2_tree_placement (items : List Cat)
    (hnd : (items.map Cat.id).Nodup) (hacyc : AcyclicItems items) :
    ∀ x ∈ items,
      ((truthy (Cat.parentId x) = true ∧ ∃ p ∈ items, Cat.parentId x = some (Cat.id p)) →
        (∃ q, q ∈ items.map Cat.fields ∧ Cat.parentId x = some q.id ∧
            (q, x.fields) ∈ childPairs (buildCategoryTreeFromFlat items)) ∧
          x.fields ∉ (buildCategoryTreeFromFlat items).map Cat.fields) ∧
      (¬(truthy (Cat.parentId x) = true ∧ ∃ p ∈ items, Cat.parentId x = some (Cat.id p)) →
        x.fields ∈ (buildCategoryTreeFromFlat items).map Cat.fields ∧
          ∀ q, (q, x.fields) ∉ childPairs (buildCategoryTreeFromFlat items)) := by
  obtain ⟨rank, hrank⟩ := hacyc
  have hE : mapEntries items = items.map Cat.fields := mapEntries_eq_of_nodup items hnd
  have hend : ((mapEntries items).map CatFlat.id).Nodup := by
    rw [hE, List.map_map]
    exact hnd
  have hcond : ∀ x : Cat, isPlacedB (mapEntries items) x.fields = true ↔
      (truthy (Cat.parentId x) = true ∧ ∃ p ∈ items, Cat.parentId x = some (Cat.id p)) := by
    intro x
    rw [isPlacedB_iff]
    constructor
    · rintro ⟨ht, q, hq, hqid⟩
      rw [hE] at hq
      obtain ⟨p, hp, rfl⟩ := List.mem_map.1 hq
      exact ⟨ht, p, hp, hqid⟩
    · rintro ⟨ht, p, hp, hpid⟩
      refine ⟨ht, p.fields, ?_, hpid⟩
      rw [hE]
      exact List.mem_map_of_mem Cat.fields hp
  have hrank2 : ∀ y ∈ mapEntries items, ∀ p ∈ mapEntries items,
      truthy y.parentId = true → y.parentId = some p.id → rank p.id < rank y.id := by
    rw [hE]
    intro y hy p hp ht hpid
    obtain ⟨yc, hyc, rfl⟩ := List.mem_map.1 hy
    obtain ⟨pc, hpc, rfl⟩ := List.mem_map.1 hp
    exact hrank yc hyc pc hpc ht hpid
  have hnr_nd : (((mapEntries items).filter
      (fun e => isPlacedB (mapEntries items) e)).map CatFlat.id).Nodup :=
    hend.sublist ((List.filter_sublist (mapEntries items)).map CatFlat.id)
  have hfresh : ∀ r ∈ (mapEntries items).filter (fun e => !isPlacedB (mapEntries items) e),
      ∀ e ∈ (mapEntries items).filter (fun e => isPlacedB (mapEntries items) e),
        e.id ≠ r.id := by
    intro r hr e he hid
    have hre := List.mem_filter.1 hr
    have hee := List.mem_filter.1 he
    have heq : e = r := id_inj_of_nodup hend hee.1 hre.1 hid
    have h1 := hre.2
    rw [← heq, hee.2] at h1
    simp at h1
  intro x hx
  have hxe : x.fields ∈ mapEntries items := by
    rw [hE]
    exact List.mem_map_of_mem Cat.fields hx
  constructor
  · intro hplaced
    have hpb : isPlacedB (mapEntries items) x.fields = true := (hcond x).2 hplaced
    obtain ⟨r, hr, hchain⟩ := placed_chain_to_root (mapEntries items) rank hrank2
        (rank x.fields.id + 1) x.fields hxe (Nat.lt_succ_self _) hpb
    have hrent := List.mem_filter.1 hr
    have hrfalse : isPlacedB (mapEntries items) r = false := by simpa using hrent.2
    have hlen : ((mapEntries items).filter
        (fun e => isPlacedB (mapEntries items) e)).length < (mapEntries items).length :=
      length_filter_lt _ _ r hrent.1 hrfalse
    have hxcoll : x.fields ∈ collectF (buildKids (mapEntries items).length
        ((mapEntries items).filter (fun e => isPlacedB (mapEntries items) e)) r.id) :=
      buildKids_complete (mapEntries items).length _ r.id x.fields hlen hnr_nd
        (fun e he => hfresh r hr e he) hchain (List.mem_filter.2 ⟨hxe, hpb⟩)
    constructor
    · rcases buildKids_collect_cases _ _ _ _ hxcoll with htop | ⟨p, hpair⟩
      · obtain ⟨kk, hkk, hkkf⟩ := List.mem_map.1 htop
        have hnode := buildKids_node_mem _ _ _ kk hkk
        have hchild := (isChildOfB_iff r.id kk.fields).1 hnode.2
        rw [hkkf] at hchild
        refine ⟨r, ?_, hchild.2, ?_⟩
        · rw [← hE]
          exact hrent.1
        · simp only [buildCategoryTreeFromFlat]
          rw [childPairs_builder, List.mem_flatMap]
          exact ⟨r, hr, List.mem_append.2 (Or.inl (List.mem_map.2 ⟨kk, hkk, by rw [hkkf]⟩))⟩
      · have hp := buildKids_pairs _ _ _ p x.fields hpair
        refine ⟨p, ?_, hp.2.2.2, ?_⟩
        · rw [← hE]
          exact (List.mem_filter.1 hp.1).1
        · simp only [buildCategoryTreeFromFlat]
          rw [childPairs_builder, List.mem_flatMap]
          exact ⟨r, hr, List.mem_append.2 (Or.inr hpair)⟩
    · intro hmemtop
      simp only [buildCategoryTreeFromFlat] at hmemtop
      rw [map_fields_mk] at hmemtop
      have h1 := (List.mem_filter.1 hmemtop).2
      rw [hpb] at h1
      simp at h1
  · intro hnotplaced
    have hpb : isPlacedB (mapEntries items) x.fields = false := by
      cases hb : isPlacedB (mapEntries items) x.fields with
      | false => rfl
      | true => exact absurd ((hcond x).1 hb) hnotplaced
    constructor
    · simp only [buildCategoryTreeFromFlat]
      rw [map_fields_mk]
      refine List.mem_filter.2 ⟨hxe, by simp [hpb]⟩
    · intro q hqpair
      simp only [buildCategoryTreeFromFlat] at hqpair
      rw [childPairs_builder, List.mem_flatMap] at hqpair
      obtain ⟨r, hr, hqp⟩ := hqpair
      rcases List.mem_append.1 hqp with h2 | h2
      · obtain ⟨kk, hkk, heq⟩ := List.mem_map.1 h2
        have hkkx : kk.fields = x.fields := congrArg Prod.snd heq
        have hnode := buildKids_node_mem _ _ _ kk hkk
        have h1 := (List.mem_filter.1 hnode.1).2
        rw [hkkx, hpb] at h1
        simp at h1
      · have hp := buildKids_pairs _ _ _ q x.fields h2
        have h1 := (List.mem_filter.1 hp.2.1).2
        rw [hpb] at h1
        simp at h1

/-- Two-element `parentId` cycle on which the original C2 claim fails. -/
def c2CycleItems : List Cat :=
  [Cat.mk ⟨"a", "A", none, none, some "b"⟩ [],
   Cat.mk ⟨"b", "B", none, none, some "a"⟩ []]

/-- Counterexample to C2 as stated: in the cyclic input `c2CycleItems`, the
first item's `parentId` is non-null, non-empty and equal to the id of
another input item, yet the returned forest is empty, so the item is not
made a child of anything (and is not a root either). -/
theorem c2_tree_placement_cex :
    truthy (Cat.parentId (Cat.mk ⟨"a", "A", none, none, some "b"⟩ [])) = true ∧
    Cat.mk ⟨"b", "B", none, none, some "a"⟩ [] ∈ c2CycleItems ∧
    Cat.parentId (Cat.mk ⟨"a", "A", none, none, some "b"⟩ [])
      = some (Cat.id (Cat.mk ⟨"b", "B", none, none, some "a"⟩ [])) ∧
    buildCategoryTreeFromFlat c2CycleItems = [] ∧
    childPairs (buildCategoryTreeFromFlat c2CycleItems) = [] := by
  refine ⟨by decide, ?_, by decide, ?_, ?_⟩
  · exact List.mem_cons_of_mem _ (List.mem_cons_self _ _)
  · rfl
  · have h : buildCategoryTreeFromFlat c2CycleItems = [] := rfl
    rw [h]
    simp [childPairs]

/-- Concrete acyclic input used to witness `c2_tree_placement`. -/
def c2WItems : List Cat :=
  [Cat.mk ⟨"root", "Root", none, none, none⟩ [],
   Cat.mk ⟨"kid", "Kid", none, none, some "root"⟩ []]

/-- Rank function witnessing acyclicity of `c2WItems`. -/
def c2WRank : String → Nat :=
  fun s => if s = "kid" then 1 else 0

theorem c2_tree_placement_witness :
    (c2WItems.map Cat.id).Nodup ∧ AcyclicItems c2WItems ∧
      (Cat.mk ⟨"kid", "Kid", none, none, some "root"⟩ []).fields ∉
        (buildCategoryTreeFromFlat c2WItems).map Cat.fields :=
  ⟨by decide, ⟨c2WRank, by decide⟩,
    ((c2_tree_placement c2WItems (by decide) ⟨c2WRank, by decide⟩
        (Cat.mk ⟨"kid", "Kid", none, none, some "root"⟩ [])
        (List.mem_cons_of_mem _ (List.mem_cons_self _ _))).1
      ⟨by decide, Cat.mk ⟨"root", "Root", none, none, none⟩ [],
        List.mem_cons_self _ _, by decide⟩).2⟩

/-- The flatten behaviour claim C3 describes, written from the claim's
words: nodes are emitted in pre-order; a node appearing as a child of a
parent node `p` that has no (truthy) `parentId` of its own is emitted with
`parentId` set to `p.id`; a node whose `parentId` is already set, and
every top-level node, is emitted unchanged. -/
def flattenSpecClaim : List Cat → Option Cat → List Cat
  | [], _ => []
  | Cat.mk f cs :: rest, parent =>
    (match parent with
      | some p =>
        if truthy f.parentId then Cat.mk f cs
        else Cat.mk { f with parentId := some p.id } cs
      | none => Cat.mk f cs)
      :: (flattenSpecClaim cs (some (Cat.mk f cs)) ++ flattenSpecClaim rest parent)

/-- The flatten behaviour of C3 as amended: as `flattenSpecClaim`, except
that a child of a parent whose id is the empty string is also emitted
unchanged (the code's truthiness test `parentId && !node.parentId` rejects
an empty parent id). -/
def flattenSpecAmended : List Cat → Option Cat → List Cat
  | [], _ => []
  | Cat.mk f cs :: rest, parent =>
    (match parent with
      | some p =>
        if !truthy f.parentId && !p.id.isEmpty then
          Cat.mk { f with parentId := some p.id } cs
        else Cat.mk f cs
      | none => Cat.mk f cs)
      :: (flattenSpecAmended cs (some (Cat.mk f cs)) ++ flattenSpecAmended rest parent)

theorem flatten_eq_spec_amended : ∀ (ns : List Cat) (parent : Option Cat),
    flattenSpecAmended ns parent = flattenCategoryTree ns (parent.map Cat.id)
  | [], _ => by cases ‹Option Cat› <;> simp [flattenSpecAmended, flattenCategoryTree]
  | Cat.mk f cs :: rest, parent => by
    have h1 := flatten_eq_spec_amended cs (some (Cat.mk f cs))
    have h2 := flatten_eq_spec_amended rest parent
    cases parent with
    | none =>
      simp only [flattenSpecAmended, flattenCategoryTree, Option.map_none']
      rw [h1, h2]
      simp [truthy, Cat.id, Cat.fields]
    | some p =>
      simp only [flattenSpecAmended, flattenCategoryTree, Option.map_some']
      rw [h1, h2]
      have hcond : (truthy (some (Cat.id p)) && !truthy f.parentId)
          = (!truthy f.parentId && !(Cat.id p).isEmpty) := by
        simp [truthy, Bool.and_comm]
      rw [hcond]
      simp [Cat.id, Cat.fields]

/-- C3 (amended): `flattenCategoryTree` emits the nodes of a forest in
pre-order, each exactly once; a node that appears as a child of a parent
`p` and has no truthy `parentId` of its own is emitted with `parentId` set
to `p.id` provided `p.id` is non-empty (otherwise it is emitted
unchanged); a node whose `parentId` is already set, and every top-level
node, is emitted unchanged. -/
theorem c3_flatten_normalization (ns : List Cat) :
    flattenCategoryTree ns none = flattenSpecAmended ns none ∧
    (flattenCategoryTree ns none).map Cat.id = (collectF ns).map CatFlat.id :=
  ⟨(flatten_eq_spec_amended ns none).symm, flat_ids ns none⟩

/-- A parent node whose id is the empty string, with one child lacking a
`parentId`: the input on which C3 as stated fails. -/
def c3CexForest : List Cat :=
  [Cat.mk ⟨"", "EmptyIdParent", none, none, none⟩
    [Cat.mk ⟨"c", "Child", none, none, none⟩ []]]

/-- Counterexample to C3 as stated: the child of the empty-id parent is
emitted unchanged by the code (the truthiness test rejects the empty
string), not with `parentId` set to the parent's id as the claim says. -/
theorem c3_flatten_normalization_cex :
    (flattenCategoryTree c3CexForest none).map Cat.fields ≠
      (flattenSpecClaim c3CexForest none).map Cat.fields := by
  have e1 : truthy (some "") = false := by decide
  have e2 : ("" : String).isEmpty = true := by decide
  have hA : (flattenCategoryTree c3CexForest none).map Cat.fields
      = [⟨"", "EmptyIdParent", none, none, none⟩, ⟨"c", "Child", none, none, none⟩] := by
    simp [c3CexForest, flattenCategoryTree, truthy, Cat.fields, Cat.id, e1, e2]
  have hB : (flattenSpecClaim c3CexForest none).map Cat.fields
      = [⟨"", "EmptyIdParent", none, none, none⟩, ⟨"c", "Child", none, none, some ""⟩] := by
    simp [c3CexForest, flattenSpecClaim, truthy, Cat.fields, Cat.id]
  rw [hA, hB]
  decide

/-- Scalar fields of a `Service` (`src/api/types.ts`): everything except
the recursive `children`/`parent` links and the `addons` list, which the
flatteners never read. -/
structure SvcFlat where
  id : String
  name : String
  slug : String
  parentId : Option String
  description : Option String
  durationMinutes : Option Int
  basePriceCents : Option String
deriving DecidableEq, Repr

/-- A `Service` value: scalar fields plus the `children` list. -/
inductive Svc : Type where
  | mk (fields : SvcFlat) (children : List Svc)

/-- Scalar fields of a service node. -/
def Svc.fields : Svc → SvcFlat
  | .mk f _ => f

/-- The `id` field of a service node. -/
def Svc.id (n : Svc) : String := n.fields.id

/-- `flattenServicesTree` (`src/api/public.ts`, lines 13-24): pre-order
walk of a service forest with the same `parentId` normalization as
`flattenCategoryTree`. -/
def flattenServicesTree : List Svc → Option String → List Svc
  | [], _ => []
  | Svc.mk f cs :: rest, parentId =>
    (if truthy parentId && !truthy f.parentId then
        Svc.mk { f with parentId := parentId } cs
      else Svc.mk f cs)
      :: (flattenServicesTree cs (some f.id) ++ flattenServicesTree rest parentId)

/-- The duplicate `flattenServicesTree` of `src/App.tsx`, lines 80-91
(textually identical to the one in `src/api/public.ts`). -/
def flattenServicesTreeApp : List Svc → Option String → List Svc
  | [], _ => []
  | Svc.mk f cs :: rest, parentId =>
    (if truthy parentId && !truthy f.parentId then
        Svc.mk { f with parentId := parentId } cs
      else Svc.mk f cs)
      :: (flattenServicesTreeApp cs (some f.id) ++ flattenServicesTreeApp rest parentId)

/-- Skeleton-preserving translation of service fields to category fields:
`id`, `name` and `parentId` (everything the flatteners read or write) are
kept, `slug` is carried over, `sortOrder` has no counterpart. -/
def svcToCatFlat (f : SvcFlat) : CatFlat :=
  ⟨f.id, f.name, some f.slug, none, f.parentId⟩

mutual

/-- Structure-preserving translation of a service tree to a category tree. -/
def svcToCat : Svc → Cat
  | .mk f cs => Cat.mk (svcToCatFlat f) (svcToCatList cs)

/-- Pointwise extension of `svcToCat` to forests. -/
def svcToCatList : List Svc → List Cat
  | [] => []
  | c :: cs => svcToCat c :: svcToCatList cs

end

theorem svcToCatList_eq : ∀ (ns : List Svc), svcToCatList ns = ns.map svcToCat
  | [] => by rw [svcToCatList]; rfl
  | c :: cs => by rw [svcToCatList, svcToCatList_eq cs]; rfl

theorem svcToCat_mk (f : SvcFlat) (cs : List Svc) :
    svcToCat (Svc.mk f cs) = Cat.mk (svcToCatFlat f) (cs.map svcToCat) := by
  rw [svcToCat, svcToCatList_eq]

theorem flattenSvc_toCat : ∀ (ns : List Svc) (pid : Option String),
    (flattenServicesTree ns pid).map svcToCat = flattenCategoryTree (ns.map svcToCat) pid
  | [], _ => by simp [flattenServicesTree, flattenCategoryTree]
  | Svc.mk f cs :: rest, pid => by
    have h1 := flattenSvc_toCat cs (some f.id)
    have h2 := flattenSvc_toCat rest pid
    by_cases h : (truthy pid && !truthy f.parentId) = true <;>
      simp [flattenServicesTree, flattenCategoryTree, svcToCat_mk, svcToCatFlat, h, h1, h2,
        Svc.id, Svc.fields, Cat.id, Cat.fields]

theorem flattenSvcApp_eq : ∀ (ns : List Svc) (pid : Option String),
    flattenServicesTreeApp ns pid = flattenServicesTree ns pid
  | [], _ => by simp [flattenServicesTreeApp, flattenServicesTree]
  | Svc.mk f cs :: rest, pid => by
    have h1 := flattenSvcApp_eq cs (some f.id)
    have h2 := flattenSvcApp_eq rest pid
    simp [flattenServicesTreeApp, flattenServicesTree, h1, h2]

/-- C10: the service flattener of `src/api/public.ts`, its duplicate in
`src/App.tsx` and the category flattener are the same algorithm: the
`App.tsx` duplicate agrees with the `public.ts` one on every input, and on
structurally identical trees (related by the skeleton-preserving
translation `svcToCat`) the service flattener and the category flattener
produce identical output. -/
theorem c10_flatteners_agree (ns : List Svc) (pid : Option String) :
    flattenServicesTreeApp ns pid = flattenServicesTree ns pid ∧
    (flattenServicesTree ns pid).map svcToCat = flattenCategoryTree (ns.map svcToCat) pid :=
  ⟨flattenSvcApp_eq ns pid, flattenSvc_toCat ns pid⟩

/-- A `ProductCategoryLink` (`src/api/types.ts`): link id plus optional
category (scalar part; the dedup scan only reads `category.id`). -/
structure ProductCategoryLink where
  id : String
  category : Option CatFlat
deriving DecidableEq, Repr

/-- A `Product` (`src/api/types.ts`), restricted to the fields the
functions under study read: direct category, category links and price. -/
structure Product where
  id : String
  name : String
  slug : String
  category : Option CatFlat
  categoryLinks : List ProductCategoryLink
  priceCents : Option String
deriving DecidableEq, Repr

/-- Parameters of `fetchProductsPage` (`src/api/public.ts`, lines 82-89);
`none` models an omitted optional parameter. -/
structure ProductsParams where
  page : Option Int
  pageSize : Option Int
  categoryId : Option String
  categorySlug : Option String
  query : Option String
  slug : Option String

/-- Envelope shape `ProductsPageResponse` (`src/api/public.ts`, lines
64-73): each field is `none` when absent (or not an array, for the list
fields). -/
structure ProductsEnvelope where
  items : Option (List Product)
  data : Option (List Product)
  results : Option (List Product)
  total : Option Nat
  count : Option Nat
  page : Option Int
  pageSize : Option Int
  limit : Option Int

/-- Outcome of the `/public/products` call awaited by `fetchProductsPage`:
a bare JSON array, an envelope object, or a rejection (network failure,
non-ok status, unusable body - anything making the `try` block throw). -/
inductive ProductsResponse where
  | arr (items : List Product)
  | env (e : ProductsEnvelope)
  | failure

/-- The normalized result type `ProductsPage` (`src/api/public.ts`,
lines 75-80). -/
structure ProductsPage where
  items : List Product
  total : Nat
  page : Int
  pageSize : Int
deriving DecidableEq, Repr

/-- `fetchProductsPage` (`src/api/public.ts`, lines 82-129), response
shaping only (the query-string construction does not affect the returned
value).  JavaScript `a || b` on the list fields picks the first present
array (an empty array is truthy), which is `Option.or`; `a ?? b` on the
numeric fields is also `Option.or`. -/
def fetchProductsPage (params : ProductsParams) (response : ProductsResponse) : ProductsPage :=
  let page := params.page.getD 1
  let pageSize := params.pageSize.getD 20
  match response with
  | .failure => ⟨[], 0, page, pageSize⟩
  | .arr items => ⟨items, items.length, page, pageSize⟩
  | .env e =>
    let items := ((e.items.or e.data).or e.results).getD []
    let total := (e.total.or e.count).getD items.length
    ⟨items, total, e.page.getD page, (e.pageSize.or e.limit).getD pageSize⟩

/-- The first present of three optional lists, else the empty list (the
wording of claim C4). -/
def firstPresent (a b c : Option (List Product)) : List Product :=
  match a with
  | some l => l
  | none =>
    match b with
    | some l => l
    | none =>
      match c with
      | some l => l
      | none => []

/-- C4: on a successful response, `fetchProductsPage` tolerates both
shapes: a bare array becomes `{items, total = length, page/pageSize as
requested (defaulting to 1 and 20)}`; an envelope yields the first present
of `items`/`data`/`results` (else `[]`), `total` falling back to `count`
then to the item count, `page` from the response else the request, and
`pageSize` from the response falling back to `limit` then to the request. -/
theorem c4_response_shape_tolerance (params : ProductsParams) :
    (∀ arr : List Product, fetchProductsPage params (.arr arr) =
      ⟨arr, arr.length,
        (match params.page with | some p => p | none => 1),
        (match params.pageSize with | some s => s | none => 20)⟩) ∧
    (∀ e : ProductsEnvelope,
      (fetchProductsPage params (.env e)).items = firstPresent e.items e.data e.results ∧
      (fetchProductsPage params (.env e)).total =
        (match e.total with
          | some t => t
          | none => match e.count with
            | some c => c
            | none => (firstPresent e.items e.data e.results).length) ∧
      (fetchProductsPage params (.env e)).page =
        (match e.page with
          | some p => p
          | none => match params.page with | some p => p | none => 1) ∧
      (fetchProductsPage params (.env e)).pageSize =
        (match e.pageSize with
          | some s => s
          | none => match e.limit with
            | some s => s
            | none => match params.pageSize with | some s => s | none => 20)) := by
  obtain ⟨pg, ps, q1, q2, q3, q4⟩ := params
  constructor
  · intro arr
    cases pg <;> cases ps <;> rfl
  · intro e
    obtain ⟨ei, ed, er, et, ec, ep, es, el⟩ := e
    refine ⟨?_, ?_, ?_, ?_⟩
    · cases ei <;> cases ed <;> cases er <;> rfl
    · cases et <;> cases ec <;> cases ei <;> cases ed <;> cases er <;> rfl
    · cases ep <;> cases pg <;> rfl
    · cases es <;> cases el <;> cases ps <;> rfl

/-- C5: when the underlying API call rejects for any reason,
`fetchProductsPage` returns the empty page with the requested `page` and
`pageSize` (defaulting to 1 and 20); being a total function of the
response outcome, it never propagates the error. -/
theorem c5_fetch_error_empty_page (params : ProductsParams) :
    fetchProductsPage params .failure =
      ⟨[], 0,
        (match params.page with | some p => p | none => 1),
        (match params.pageSize with | some s => s | none => 20)⟩ := by
  obtain ⟨pg, ps, q1, q2, q3, q4⟩ := params
  cases pg <;> cases ps <;> rfl

/-- `requestedPage` of `ProductsCategoryPage` (`src/App.tsx`, lines
210-211): the numeric value parsed from the `page` query parameter when it
is finite, else 1.  The float parse `Number(searchParams.get("page") ||
"1")` is abstracted to its outcome: `some v` for a finite parse (absent
parameter included, as `"1"` parses to 1), `none` for `NaN`/infinite. -/
def requestedPageOf (parsedPage : Option Int) : Int :=
  match parsedPage with
  | some v => v
  | none => 1

/-- `totalPages` of `ProductsCategoryPage` (`src/App.tsx`, line 239):
`Math.max(1, Math.ceil(total / pageSize))` with `pageSize = 20`. -/
def pcpTotalPages (total : Nat) : Int :=
  max 1 (Int.ofNat ((total + 19) / 20))

/-- `currentPage` of `ProductsCategoryPage` (`src/App.tsx`, line 240):
`Math.min(Math.max(1, requestedPage), totalPages)`. -/
def pcpCurrentPage (parsedPage : Option Int) (total : Nat) : Int :=
  min (max 1 (requestedPageOf parsedPage)) (pcpTotalPages total)

/-- C6: the displayed current page equals
`min(max(1, requestedPage), max(1, ceil(total / 20)))` where
`requestedPage` is the parsed page parameter when finite and 1 otherwise;
when `total = 0` the current page is 1; and the result is always clamped
into `[1, totalPages]`. -/
theorem c6_url_page_clamping (parsedPage : Option Int) (total : Nat) :
    pcpCurrentPage parsedPage total
      = min (max 1 (match parsedPage with | some v => v | none => 1))
          (max 1 (Int.ofNat ((total + 19) / 20))) ∧
    (total = 0 → pcpCurrentPage parsedPage total = 1) ∧
    1 ≤ pcpCurrentPage parsedPage total ∧
    pcpCurrentPage parsedPage total ≤ pcpTotalPages total := by
  refine ⟨rfl, ?_, ?_, ?_⟩
  · intro h
    subst h
    have h0 : pcpTotalPages 0 = 1 := by decide
    rw [pcpCurrentPage, h0]
    have h1 : (1 : Int) ≤ max 1 (requestedPageOf parsedPage) := le_max_left _ _
    omega
  · rw [pcpCurrentPage, le_min_iff]
    exact ⟨le_max_left _ _, le_max_left _ _⟩
  · exact min_le_right _ _

theorem c6_url_page_clamping_witness :
    (0 : Nat) = 0 ∧ pcpCurrentPage (some 7) 0 = 1 :=
  ⟨rfl, (c6_url_page_clamping (some 7) 0).2.1 rfl⟩

/-- Outcome of the `/public/products/categories` call awaited by
`fetchProductCategoriesTree`: a bare JSON array, an object whose `data`,
`items`, `results` fields are arrays when present (`none` also covers a
present non-array field; an unrecognized shape is the all-`none` object),
or a rejection. -/
inductive CategoriesTreeResponse where
  | arr (l : List Cat)
  | env (dataF itemsF resultsF : Option (List Cat))
  | failure

/-- `fetchProductCategoriesTree` (`src/api/public.ts`, lines 184-195):
unwrap a bare array or the first present of the `data`, `items`, `results`
envelope fields; any other shape, or an error, yields the empty list. -/
def fetchProductCategoriesTree : CategoriesTreeResponse → List Cat
  | .arr l => l
  | .env d i r => ((d.or i).or r).getD []
  | .failure => []

/-- `fetchProductCategories` (`src/api/public.ts`, lines 197-205): flatten
the tree endpoint result when non-empty, otherwise fall back to the
product-derived category list (`fetchProductCategoriesFromProducts`,
abstracted here as the value `fromProducts`); the catch branch returns the
same fallback. -/
def fetchProductCategories (resp : CategoriesTreeResponse) (fromProducts : List Cat) :
    List Cat :=
  let tree := fetchProductCategoriesTree resp
  if tree.length ≠ 0 then flattenCategoryTree tree none else fromProducts

/-- The unwrapping described by claim C8: the bare array, else the first
present of the `data`, `items`, `results` envelope fields; `none` when
nothing is recognized or the call failed. -/
def unwrapTreeResponse : CategoriesTreeResponse → Option (List Cat)
  | .arr l => some l
  | .env d i r =>
    match d with
    | some l => some l
    | none =>
      match i with
      | some l => some l
      | none => r
  | .failure => none

/-- C8: `fetchProductCategories` returns the flattening of the
categories-tree endpoint result whenever unwrapping yields a non-empty
array, and otherwise - empty tree, unrecognized shape, or error - falls
back to the product-derived list; as a total function of the response
outcome it never throws. -/
theorem c8_category_source_fallback (resp : CategoriesTreeResponse) (fromProducts : List Cat) :
    (∀ l, unwrapTreeResponse resp = some l → l ≠ [] →
      fetchProductCategories resp fromProducts = flattenCategoryTree l none) ∧
    ((unwrapTreeResponse resp = none ∨ unwrapTreeResponse resp = some []) →
      fetchProductCategories resp fromProducts = fromProducts) := by
  constructor
  · intro l hu hne
    have htree : fetchProductCategoriesTree resp = l := by
      cases resp with
      | arr m => exact Option.some.inj hu
      | env d i r =>
        cases d with
        | some m => exact Option.some.inj hu
        | none =>
          cases i with
          | some m => exact Option.some.inj hu
          | none =>
            cases r with
            | some m => exact Option.some.inj hu
            | none => cases hu
      | failure => cases hu
    rw [fetchProductCategories, htree, if_pos]
    intro hlen
    exact hne (List.eq_nil_of_length_eq_zero hlen)
  · intro hu
    have htree : fetchProductCategoriesTree resp = [] := by
      cases resp with
      | arr m =>
        rcases hu with h | h
        · cases h
        · exact Option.some.inj h
      | env d i r =>
        cases d with
        | some m =>
          rcases hu with h | h
          · cases h
          · exact Option.some.inj h
        | none =>
          cases i with
          | some m =>
            rcases hu with h | h
            · cases h
            · exact Option.some.inj h
          | none =>
            cases r with
            | some m =>
              rcases hu with h | h
              · cases h
              · exact Option.some.inj h
            | none => rfl
      | failure => rfl
    rw [fetchProductCategories, htree]
    simp

/-- Concrete one-node tree used to witness `c8_category_source_fallback`. -/
def c8WTree : List Cat :=
  [Cat.mk ⟨"t1", "Trees", some "trees", none, none⟩ []]

theorem c8_category_source_fallback_witness :
    unwrapTreeResponse (.env none (some c8WTree) none) = some c8WTree ∧ c8WTree ≠ [] ∧
    fetchProductCategories (.env none (some c8WTree) none) []
      = flattenCategoryTree c8WTree none :=
  ⟨rfl, by simp [c8WTree],
    (c8_category_source_fallback (.env none (some c8WTree) none) []).1 c8WTree rfl
      (by simp [c8WTree])⟩

/-- The fields of a `fetchProductsPage` result that
`fetchProductCategoriesFromProducts` reads.  Totals and page sizes are
natural numbers (negative JS numbers are outside the model). -/
structure PageResult where
  items : List Product
  total : Nat
  pageSize : Nat

theorem upsertEntry_nodup (acc : List CatFlat) (e : CatFlat)
    (h : (acc.map CatFlat.id).Nodup) : ((upsertEntry acc e).map CatFlat.id).Nodup := by
  rw [upsertEntry]
  by_cases hc : (acc.any fun x => x.id == e.id) = true
  · rw [if_pos hc]
    have hmap : ((acc.map (fun x => if x.id == e.id then e else x)).map CatFlat.id)
        = acc.map CatFlat.id := by
      rw [List.map_map]
      refine List.map_congr_left ?_
      intro x hx
      by_cases hxe : (x.id == e.id) = true
      · simp only [Function.comp_def, hxe, if_true]
        exact (beq_iff_eq.1 hxe).symm
      · simp only [Function.comp_def, hxe]
        rw [if_neg]
        simp [hxe]
    rw [hmap]
    exact h
  · rw [if_neg hc]
    rw [List.map_append]
    refine List.Nodup.append h (List.nodup_singleton _) ?_
    intro a ha hb
    rw [List.map_singleton, List.mem_singleton] at hb
    obtain ⟨x, hx, hxid⟩ := List.mem_map.1 ha
    subst hb
    exact hc (List.any_eq_true.2 ⟨x, hx, beq_iff_eq.2 hxid⟩)

/-- `categories.set(category.id, category)` guarded by the truthiness of
the id, from the body of `fetchProductCategoriesFromProducts`. -/
def insertCatIfTruthy (acc : List CatFlat) (c : Option CatFlat) : List CatFlat :=
  match c with
  | some cat => if cat.id ≠ "" then upsertEntry acc cat else acc
  | none => acc

/-- The per-product accumulation of `fetchProductCategoriesFromProducts`
(`src/api/public.ts`, lines 164-173): the direct `category`, then every
`categoryLinks` entry's category, each stored when its id is truthy. -/
def insertProductCats (acc : List CatFlat) (p : Product) : List CatFlat :=
  p.categoryLinks.foldl (fun a link => insertCatIfTruthy a link.category)
    (insertCatIfTruthy acc p.category)

theorem insertCatIfTruthy_nodup (acc : List CatFlat) (c : Option CatFlat)
    (h : (acc.map CatFlat.id).Nodup) : ((insertCatIfTruthy acc c).map CatFlat.id).Nodup := by
  cases c with
  | none => exact h
  | some cat =>
    rw [insertCatIfTruthy]
    by_cases hid : cat.id ≠ ""
    · rw [if_pos hid]
      exact upsertEntry_nodup acc cat h
    · rw [if_neg hid]
      exact h

theorem foldl_links_nodup : ∀ (links : List ProductCategoryLink) (acc : List CatFlat),
    (acc.map CatFlat.id).Nodup →
    ((links.foldl (fun a link => insertCatIfTruthy a link.category) acc).map CatFlat.id).Nodup := by
  intro links
  induction links with
  | nil => intro acc h; exact h
  | cons l ls ih =>
    intro acc h
    rw [List.foldl_cons]
    exact ih _ (insertCatIfTruthy_nodup acc l.category h)

theorem foldl_products_nodup : ∀ (prods : List Product) (acc : List CatFlat),
    (acc.map CatFlat.id).Nodup →
    ((prods.foldl insertProductCats acc).map CatFlat.id).Nodup := by
  intro prods
  induction prods with
  | nil => intro acc h; exact h
  | cons p ps ih =>
    intro acc h
    rw [List.foldl_cons]
    refine ih _ ?_
    rw [insertProductCats]
    exact foldl_links_nodup _ _ (insertCatIfTruthy_nodup acc p.category h)

/-- The `totalPages` recomputation of each loop iteration of
`fetchProductCategoriesFromProducts` (`src/api/public.ts`, lines 175-176):
`resultPageSize = result.pageSize || pageSize` and
`totalPages = resultPageSize ? Math.ceil((result.total || 0) / resultPageSize) : 1`. -/
def scanNextTotalPages (r : PageResult) (pageSize : Nat) : Nat :=
  if r.pageSize ≠ 0 then (r.total + r.pageSize - 1) / r.pageSize
  else if pageSize ≠ 0 then (r.total + pageSize - 1) / pageSize
  else 1

/-- The `while (page <= totalPages && page <= maxPages)` loop of
`fetchProductCategoriesFromProducts` (`src/api/public.ts`, lines 156-179).
Each iteration accumulates the page's categories, recomputes `totalPages`,
breaks on an empty page (`if (items.length === 0) break`) and otherwise
advances.  The visited page numbers are returned alongside the accumulator
for specification purposes; fuel `maxPages + 1` exceeds the iteration
count, which the loop guard bounds by `maxPages`. -/
def scanGo (backend : Nat → PageResult) (pageSize maxPages : Nat) :
    Nat → Nat → Nat → List CatFlat → List Nat → List CatFlat × List Nat
  | 0, _, _, acc, vis => (acc, vis)
  | fuel + 1, page, totalPages, acc, vis =>
    if page ≤ totalPages ∧ page ≤ maxPages then
      if (backend page).items.length = 0 then
        ((backend page).items.foldl insertProductCats acc, vis ++ [page])
      else
        scanGo backend pageSize maxPages fuel (page + 1)
          (scanNextTotalPages (backend page) pageSize)
          ((backend page).items.foldl insertProductCats acc) (vis ++ [page])
    else (acc, vis)

/-- `fetchProductCategoriesFromProducts` (`src/api/public.ts`, lines
150-182): scan the paginated products (pageSize defaulting to 100, at
most maxPages pages defaulting to 50, starting at page 1 with totalPages
1) and collect each product's direct category and link categories into a
`Map` keyed by id; the insertion-order value list is returned, paired with
the visited page numbers. -/
def fetchProductCategoriesFromProducts (backend : Nat → PageResult)
    (pageSizeOpt maxPagesOpt : Option Nat) : List CatFlat × List Nat :=
  scanGo backend (pageSizeOpt.getD 100) (maxPagesOpt.getD 50)
    (maxPagesOpt.getD 50 + 1) 1 1 [] []

theorem scanGo_spec (backend : Nat → PageResult) (pageSize maxPages : Nat) :
    ∀ (fuel page totalPages : Nat) (acc : List CatFlat) (vis : List Nat),
      (acc.map CatFlat.id).Nodup →
      (∀ i ∈ vis, i < page) →
      (∀ i ∈ vis, (backend i).items ≠ []) →
      (((scanGo backend pageSize maxPages fuel page totalPages acc vis).1.map
          CatFlat.id).Nodup ∧
        (scanGo backend pageSize maxPages fuel page totalPages acc vis).2.length
          ≤ vis.length + (maxPages + 1 - page) ∧
        (∀ i ∈ (scanGo backend pageSize maxPages fuel page totalPages acc vis).2,
          (backend i).items = [] →
          ∀ j ∈ (scanGo backend pageSize maxPages fuel page totalPages acc vis).2, j ≤ i)) := by
  intro fuel
  induction fuel with
  | zero =>
    intro page totalPages acc vis hnd hlt hne
    rw [scanGo]
    refine ⟨hnd, Nat.le_add_right _ _, ?_⟩
    intro i hi hempty j _
    exact absurd hempty (hne i hi)
  | succ fuel ih =>
    intro page totalPages acc vis hnd hlt hne
    rw [scanGo]
    by_cases hguard : page ≤ totalPages ∧ page ≤ maxPages
    · rw [if_pos hguard]
      by_cases hempty : (backend page).items.length = 0
      · rw [if_pos hempty]
        refine ⟨foldl_products_nodup _ acc hnd, ?_, ?_⟩
        · have h1 : (vis ++ [page]).length = vis.length + 1 := by
            rw [List.length_append, List.length_singleton]
          rw [h1]
          omega
        · intro i hi hiempty j hj
          rcases List.mem_append.1 hi with hi2 | hi2
          · exact absurd hiempty (hne i hi2)
          · rw [List.mem_singleton] at hi2
            subst hi2
            rcases List.mem_append.1 hj with hj2 | hj2
            · exact Nat.le_of_lt (hlt j hj2)
            · rw [List.mem_singleton] at hj2
              exact Nat.le_of_eq hj2
      · rw [if_neg hempty]
        have hne2 : ∀ i ∈ vis ++ [page], (backend i).items ≠ [] := by
          intro i hi
          rcases List.mem_append.1 hi with hi2 | hi2
          · exact hne i hi2
          · rw [List.mem_singleton] at hi2
            subst hi2
            intro hil
            exact hempty (by rw [hil]; rfl)
        have hlt2 : ∀ i ∈ vis ++ [page], i < page + 1 := by
          intro i hi
          rcases List.mem_append.1 hi with hi2 | hi2
          · exact Nat.lt_succ_of_lt (hlt i hi2)
          · rw [List.mem_singleton] at hi2
            omega
        obtain ⟨hA, hB, hC⟩ := ih (page + 1) (scanNextTotalPages (backend page) pageSize)
          ((backend page).items.foldl insertProductCats acc) (vis ++ [page])
          (foldl_products_nodup _ acc hnd) hlt2 hne2
        refine ⟨hA, ?_, hC⟩
        have h1 : (vis ++ [page]).length = vis.length + 1 := by
          rw [List.length_append, List.length_singleton]
        rw [h1] at hB
        have hpm := hguard.2
        omega
    · rw [if_neg hguard]
      refine ⟨hnd, Nat.le_add_right _ _, ?_⟩
      intro i hi hempty2 j _
      exact absurd hempty2 (hne i hi)

/-- C9: the list returned by `fetchProductCategoriesFromProducts` contains
each category id at most once (deduplication by id over a product's direct
category and all its `categoryLinks`), the scan visits at most `maxPages`
pages (default 50), and a visited empty page is always the last page
visited (the scan stops early on it). -/
theorem c9_derived_category_ids_unique (backend : Nat → PageResult)
    (pageSizeOpt maxPagesOpt : Option Nat) :
    (((fetchProductCategoriesFromProducts backend pageSizeOpt maxPagesOpt).1.map
        CatFlat.id).Nodup) ∧
    (fetchProductCategoriesFromProducts backend pageSizeOpt maxPagesOpt).2.length
      ≤ maxPagesOpt.getD 50 ∧
    (∀ i ∈ (fetchProductCategoriesFromProducts backend pageSizeOpt maxPagesOpt).2,
      (backend i).items = [] →
      ∀ j ∈ (fetchProductCategoriesFromProducts backend pageSizeOpt maxPagesOpt).2,
        j ≤ i) := by
  have h := scanGo_spec backend (pageSizeOpt.getD 100) (maxPagesOpt.getD 50)
    (maxPagesOpt.getD 50 + 1) 1 1 [] [] (by simp) (by simp) (by simp)
  rw [fetchProductCategoriesFromProducts]
  refine ⟨h.1, ?_, h.2.2⟩
  have hB := h.2.1
  simpa using hB

/-- Concrete backend used to witness `c9_derived_category_ids_unique`: one
page with two products sharing a category, then empty pages. -/
def c9WBackend : Nat → PageResult := fun i =>
  if i = 1 then
    ⟨[⟨"p1", "P1", "p1", some ⟨"x", "X", none, none, none⟩, [], none⟩,
      ⟨"p2", "P2", "p2", some ⟨"x", "X", none, none, none⟩, [], none⟩], 2, 100⟩
  else ⟨[], 0, 100⟩

theorem c9_derived_category_ids_unique_witness :
    (((fetchProductCategoriesFromProducts c9WBackend none none).1.map CatFlat.id).Nodup) ∧
    (fetchProductCategoriesFromProducts c9WBackend none none).2.length ≤ 50 :=
  ⟨(c9_derived_category_ids_unique c9WBackend none none).1,
    (c9_derived_category_ids_unique c9WBackend none none).2.1⟩
